import Mathlib

/-!
Verification development for the dense linear-algebra kernels of this
repository: the Hermitian rank-2k update `her2k` (include/blas/her2k.hpp)
and the blocked LQ factorization driver `gelqf` (include/lapack/gelqf.hpp).

The scalar type is modelled as exact complex numbers with rational
components (`Cplx`), so that real/imaginary bookkeeping, conjugation and
the diagonal-realness discipline of the source are captured exactly.
Matrices are modelled as flat stores `Nat → Cplx` addressed through the
same leading-dimension index arithmetic the source macros use
(`C(i,j) = C[i + j*ldc]`).  All loops are translated to a structural
iteration combinator `iterUp` so that every definition is executable.
-/

namespace Tlapack

/-- Exact complex scalar with integer components, standing for the
`scalar_t` of the source (`blas::scalar_type<TA,TB,TC>`). -/
structure Cplx where
  re : ℤ
  im : ℤ
deriving DecidableEq

/-- Complex addition. -/
def Cplx.add (x y : Cplx) : Cplx := ⟨x.re + y.re, x.im + y.im⟩

/-- Complex multiplication. -/
def Cplx.mul (x y : Cplx) : Cplx :=
  ⟨x.re * y.re - x.im * y.im, x.re * y.im + x.im * y.re⟩

/-- Complex conjugation, the source's `conj`. -/
def Cplx.conj (x : Cplx) : Cplx := ⟨x.re, -x.im⟩

/-- Scaling by a real scalar (multiplication by the real `beta`). -/
def Cplx.scale (r : ℤ) (x : Cplx) : Cplx := ⟨r * x.re, r * x.im⟩

/-- Embedding of a real scalar into the complex type (used where the
source assigns a `real_type` value into a complex matrix entry). -/
def Cplx.ofInt (r : ℤ) : Cplx := ⟨r, 0⟩

instance : Add Cplx := ⟨Cplx.add⟩
instance : Mul Cplx := ⟨Cplx.mul⟩
instance : OfNat Cplx 0 := ⟨⟨0, 0⟩⟩
instance : OfNat Cplx 1 := ⟨⟨1, 0⟩⟩

/-- Column-major flat index: entry (i,j) of a matrix with leading
dimension `ld` lives at flat position `i + j*ld` (the source macros). -/
def lin (ld i j : Nat) : Nat := i + j * ld

/-- Pointwise store update: write value `v` at flat position `p`. -/
def upd (C : Nat → Cplx) (p : Nat) (v : Cplx) : Nat → Cplx :=
  fun q => if q = p then v else C q

/-- Iterate `f` over the `c` consecutive indices starting at `a`
(structural recursion, so concrete instances evaluate by `decide`). -/
def iterCnt {σ : Type} (f : Nat → σ → σ) : Nat → Nat → σ → σ
  | 0, _, s => s
  | c + 1, a, s => iterCnt f c (a + 1) (f a s)

/-- The C loop `for (i = a; i < b; ++i) body`. -/
def iterUp {σ : Type} (f : Nat → σ → σ) (a b : Nat) (s : σ) : σ :=
  iterCnt f (b - a) a s

/-- Matrix storage order (`blas::Layout`). -/
inductive Layout
  | ColMajor
  | RowMajor
deriving DecidableEq

/-- Referenced triangle selector (`blas::Uplo`). -/
inductive Uplo
  | Lower
  | Upper
  | General
deriving DecidableEq

/-- Operation selector (`blas::Op`); `Trans` is rejected by `her2k`. -/
inductive Op
  | NoTrans
  | Trans
  | ConjTrans
deriving DecidableEq

/-- Row-major adaptation of the triangle selector (her2k.hpp:142-145):
Lower and Upper are swapped, General is left as is. -/
def swapUplo : Uplo → Uplo
  | Uplo.Lower => Uplo.Upper
  | Uplo.Upper => Uplo.Lower
  | Uplo.General => Uplo.General

/-- Row-major adaptation of the operation selector (her2k.hpp:146-148):
`trans = (trans == NoTrans) ? ConjTrans : NoTrans`. -/
def flipOp (t : Op) : Op :=
  if t = Op.NoTrans then Op.ConjTrans else Op.NoTrans

/-- The `alpha == zero` branch of her2k (her2k.hpp:165-210), translated
verbatim, including the source's branch conditions. -/
def her2kAlphaZero (uplo : Uplo) (n : Nat) (beta : ℤ)
    (C0 : Nat → Cplx) (ldc : Nat) : Nat → Cplx :=
  if beta = 0 then
    if uplo ≠ Uplo.Upper then
      iterUp (fun j C => iterUp (fun i C => upd C (lin ldc i j) 0) 0 (j + 1) C) 0 n C0
    else if uplo ≠ Uplo.Lower then
      iterUp (fun j C => iterUp (fun i C => upd C (lin ldc i j) 0) j n C) 0 n C0
    else
      iterUp (fun j C => iterUp (fun i C => upd C (lin ldc i j) 0) 0 n C) 0 n C0
  else if beta ≠ 1 then
    if uplo ≠ Uplo.Upper then
      iterUp (fun j C =>
        let Ca := iterUp (fun i C => upd C (lin ldc i j) (Cplx.scale beta (C (lin ldc i j)))) 0 j C
        upd Ca (lin ldc j j) (Cplx.ofInt (beta * (Ca (lin ldc j j)).re))) 0 n C0
    else if uplo ≠ Uplo.Lower then
      iterUp (fun j C =>
        let Ca := upd C (lin ldc j j) (Cplx.ofInt (beta * (C (lin ldc j j)).re))
        iterUp (fun i C => upd C (lin ldc i j) (Cplx.scale beta (C (lin ldc i j)))) (j + 1) n Ca) 0 n C0
    else
      iterUp (fun j C =>
        let Ca := iterUp (fun i C => upd C (lin ldc i j) (Cplx.scale beta (C (lin ldc i j)))) 0 j C
        let Cb := upd Ca (lin ldc j j) (Cplx.ofInt (beta * (Ca (lin ldc j j)).re))
        iterUp (fun i C => upd C (lin ldc i j) (Cplx.scale beta (C (lin ldc i j)))) (j + 1) n Cb) 0 n C0
  else C0

/-- Column body of the NoTrans, upper/General branch (her2k.hpp:217-234). -/
def ntUpperCol (k : Nat) (alpha : Cplx) (A : Nat → Cplx) (lda : Nat)
    (B : Nat → Cplx) (ldb : Nat) (beta : ℤ) (ldc : Nat)
    (j : Nat) (C : Nat → Cplx) : Nat → Cplx :=
  let Ca := iterUp (fun i C => upd C (lin ldc i j) (Cplx.scale beta (C (lin ldc i j)))) 0 j C
  let Cb := upd Ca (lin ldc j j) (Cplx.ofInt (beta * (Ca (lin ldc j j)).re))
  iterUp (fun l C =>
    let aB := alpha * Cplx.conj (B (lin ldb j l))
    let cA := Cplx.conj (alpha * A (lin lda j l))
    let Cc := iterUp (fun i C =>
      upd C (lin ldc i j) (C (lin ldc i j) + (A (lin lda i l) * aB + B (lin ldb i l) * cA))) 0 j C
    upd Cc (lin ldc j j)
      (Cc (lin ldc j j) + Cplx.ofInt (2 * (A (lin lda j l) * aB).re))) 0 k Cb

/-- Column body of the NoTrans, Lower branch (her2k.hpp:237-254). -/
def ntLowerCol (n k : Nat) (alpha : Cplx) (A : Nat → Cplx) (lda : Nat)
    (B : Nat → Cplx) (ldb : Nat) (beta : ℤ) (ldc : Nat)
    (j : Nat) (C : Nat → Cplx) : Nat → Cplx :=
  let Ca := upd C (lin ldc j j) (Cplx.ofInt (beta * (C (lin ldc j j)).re))
  let Cb := iterUp (fun i C => upd C (lin ldc i j) (Cplx.scale beta (C (lin ldc i j)))) (j + 1) n Ca
  iterUp (fun l C =>
    let aB := alpha * Cplx.conj (B (lin ldb j l))
    let cA := Cplx.conj (alpha * A (lin lda j l))
    let Cc := upd C (lin ldc j j)
      (C (lin ldc j j) + Cplx.ofInt (2 * (A (lin lda j l) * aB).re))
    iterUp (fun i C =>
      upd C (lin ldc i j) (C (lin ldc i j) + (A (lin lda i l) * aB + B (lin ldb i l) * cA))) (j + 1) n Cc) 0 k Cb

/-- Column body of the ConjTrans, upper/General branch (her2k.hpp:260-276). -/
def ctUpperCol (k : Nat) (alpha : Cplx) (A : Nat → Cplx) (lda : Nat)
    (B : Nat → Cplx) (ldb : Nat) (beta : ℤ) (ldc : Nat)
    (j : Nat) (C : Nat → Cplx) : Nat → Cplx :=
  iterUp (fun i C =>
    let s1 := iterUp (fun l s => s + Cplx.conj (A (lin lda l i)) * B (lin ldb l j)) 0 k 0
    let s2 := iterUp (fun l s => s + Cplx.conj (B (lin ldb l i)) * A (lin lda l j)) 0 k 0
    upd C (lin ldc i j)
      (if i < j then alpha * s1 + Cplx.conj alpha * s2 + Cplx.scale beta (C (lin ldc i j))
       else Cplx.ofInt ((alpha * s1 + Cplx.conj alpha * s2).re + beta * (C (lin ldc i j)).re)))
    0 (j + 1) C

/-- Column body of the ConjTrans, Lower branch (her2k.hpp:280-296). -/
def ctLowerCol (n k : Nat) (alpha : Cplx) (A : Nat → Cplx) (lda : Nat)
    (B : Nat → Cplx) (ldb : Nat) (beta : ℤ) (ldc : Nat)
    (j : Nat) (C : Nat → Cplx) : Nat → Cplx :=
  iterUp (fun i C =>
    let s1 := iterUp (fun l s => s + Cplx.conj (A (lin lda l i)) * B (lin ldb l j)) 0 k 0
    let s2 := iterUp (fun l s => s + Cplx.conj (B (lin ldb l i)) * A (lin lda l j)) 0 k 0
    upd C (lin ldc i j)
      (if j < i then alpha * s1 + Cplx.conj alpha * s2 + Cplx.scale beta (C (lin ldc i j))
       else Cplx.ofInt ((alpha * s1 + Cplx.conj alpha * s2).re + beta * (C (lin ldc i j)).re)))
    j n C

/-- The General post-step (her2k.hpp:300-305): mirror the computed upper
triangle into the strictly lower triangle by conjugate transposition. -/
def her2kMirror (n ldc : Nat) (C0 : Nat → Cplx) : Nat → Cplx :=
  iterUp (fun j C =>
    iterUp (fun i C => upd C (lin ldc i j) (Cplx.conj (C (lin ldc j i)))) (j + 1) n C) 0 n C0

/-- The her2k kernel body after layout adaptation (her2k.hpp:160-305):
quick return for n = 0, the alpha = 0 branch, the four main branches,
and the General mirroring post-step. -/
def her2kKernel (uplo : Uplo) (trans : Op) (n k : Nat) (alpha : Cplx)
    (A : Nat → Cplx) (lda : Nat) (B : Nat → Cplx) (ldb : Nat) (beta : ℤ)
    (C : Nat → Cplx) (ldc : Nat) : Nat → Cplx :=
  if n = 0 then C
  else if alpha = 0 then her2kAlphaZero uplo n beta C ldc
  else
    let C1 :=
      if trans = Op.NoTrans then
        if uplo ≠ Uplo.Lower then iterUp (ntUpperCol k alpha A lda B ldb beta ldc) 0 n C
        else iterUp (ntLowerCol n k alpha A lda B ldb beta ldc) 0 n C
      else
        if uplo ≠ Uplo.Lower then iterUp (ctUpperCol k alpha A lda B ldb beta ldc) 0 n C
        else iterUp (ctLowerCol n k alpha A lda B ldb beta ldc) 0 n C
    if uplo = Uplo.General then her2kMirror n ldc C1 else C1

/-- Full her2k entry point (her2k.hpp:89-310).  Argument checks that the
source performs with `blas_error_if` are modelled by returning `none`;
`n < 0` and `k < 0` cannot arise since dimensions are `Nat`.  Row-major
storage is adapted exactly as in the source: leading-dimension checks
against the original `trans`, then swap `uplo`, flip `trans`, and
conjugate `alpha`, falling through to the same column-major kernel. -/
def her2k (layout : Layout) (uplo : Uplo) (trans : Op) (n k : Nat)
    (alpha : Cplx) (A : Nat → Cplx) (lda : Nat) (B : Nat → Cplx) (ldb : Nat)
    (beta : ℤ) (C : Nat → Cplx) (ldc : Nat) : Option (Nat → Cplx) :=
  if ¬ (trans = Op.NoTrans ∨ trans = Op.ConjTrans) then none
  else if layout = Layout.RowMajor then
    if lda < (if trans = Op.NoTrans then k else n) then none
    else if ldb < (if trans = Op.NoTrans then k else n) then none
    else if ldc < n then none
    else some (her2kKernel (swapUplo uplo) (flipOp trans) n k (Cplx.conj alpha)
      A lda B ldb beta C ldc)
  else
    if lda < (if trans = Op.NoTrans then n else k) then none
    else if ldb < (if trans = Op.NoTrans then n else k) then none
    else if ldc < n then none
    else some (her2kKernel uplo trans n k alpha A lda B ldb beta C ldc)

/-- Record of one iteration of gelqf's panel loop (gelqf.hpp:84-112):
the panel offset `j`, the clipped block height `ib = min(nb, k - j)`,
and whether the larft/larfb block-apply step ran (`j + ib < k`). -/
structure PanelCall where
  j : Nat
  ib : Nat
  blocked : Bool
deriving DecidableEq

/-- Modelled from the spec: the panel loop of gelqf (gelqf.hpp:84-112).
The unblocked panel step `gelq2` and the `larft`/`larfb` block-apply
(whose sources are not part of this repository snapshot) are abstracted
as the caller-supplied state transformers `pan j ib` (factor the panel
`A[j : j+ib, j : n]` writing taus into `TT(j : j+ib, 0 : ib)`) and
`ba j ib` (assemble the triangular factor and apply the block reflector
to `A[j+ib : m, j : n]`).  The C++ `for (j = 0; j < k; j += nb)` loop is
unrolled with explicit `fuel`; `none` means the fuel was exhausted while
the loop guard was still true (with `nb = 0` and `k > 0` that happens
for every fuel, matching the source's non-termination). -/
def gelqfLoop {S : Type} (pan ba : Nat → Nat → S → S) (k nb : Nat) :
    Nat → Nat → S → Option (S × List PanelCall)
  | 0, j, s => if j < k then none else some (s, [])
  | fuel + 1, j, s =>
    if j < k then
      let ib := min nb (k - j)
      let s1 := pan j ib s
      if j + ib < k then
        (gelqfLoop pan ba k nb fuel (j + nb) (ba j ib s1)).map
          (fun r => (r.1, ⟨j, ib, true⟩ :: r.2))
      else
        (gelqfLoop pan ba k nb fuel (j + nb) s1).map
          (fun r => (r.1, ⟨j, ib, false⟩ :: r.2))
    else some (s, [])

/-- The panel loop never terminates from offset 0: every fuel runs out. -/
def gelqfLoopDiverges {S : Type} (pan ba : Nat → Nat → S → S)
    (k nb : Nat) (s : S) : Prop :=
  ∀ fuel, gelqfLoop pan ba k nb fuel 0 s = none

/-- Modelled from the spec: gelqf (gelqf.hpp:69-115).  The three
`tlapack_check_false` argument checks (whose macro definition is not
part of this repository snapshot) are modelled, per the spec's
error-signaling contract, as an immediate return of the position-indexed
code (-1: A write access denied, -2: TT too small, -3: work too short)
with the state untouched; success returns code 0 together with the final
state and the list of panel iterations.  The loop is run with fuel `k`,
which suffices whenever `nb ≥ 1`; `none` models non-termination. -/
def gelqf {S : Type} (pan ba : Nat → Nat → S → S)
    (m n nb ttRows ttCols workSize : Nat) (writeAccess : Bool) (s : S) :
    Option (Int × S × List PanelCall) :=
  let k := min m n
  if ¬ writeAccess then some (-1, s, [])
  else if ttRows < m ∨ ttCols < nb then some (-2, s, [])
  else if workSize < m then some (-3, s, [])
  else (gelqfLoop pan ba k nb k 0 s).map (fun r => (0, r.1, r.2))

/-! Concrete inputs used by the closed counterexample theorems and by
the witnesses of the hypothesis-carrying theorems. -/

/-- Concrete A for the n=2, k=1 scenario: the column vector (1, 0). -/
def w6A : Nat → Cplx := fun q => if q = 0 then 1 else 0

/-- Concrete B for the n=2, k=1 scenario: the column vector (0, 1). -/
def w6B : Nat → Cplx := fun q => if q = 1 then 1 else 0

/-- Concrete 2x2 C whose entry (i,j) at flat position q is q+1 + i. -/
def w1C : Nat → Cplx := fun q => ⟨(q : Int) + 1, 1⟩

/-- Concrete C with a non-real entry on the diagonal position (0,0). -/
def w2C : Nat → Cplx := fun q => if q = 0 then ⟨2, 5⟩ else ⟨1, 0⟩

/-- Concrete 2x2 C that is not Hermitian: C(1,0) = i, C(0,1) = 0. -/
def w3C : Nat → Cplx := fun q => if q = 1 then ⟨0, 1⟩ else 0

/-- Concrete C for witnesses needing an arbitrary Hermitian-diagonal-free
input. -/
def w5C : Nat → Cplx := fun _ => ⟨3, 4⟩

/-- Result store of the General, ConjTrans witness call (n = 2, k = 1,
alpha = 1 + 2i, beta = 3). -/
def w3W : Nat → Cplx :=
  her2kKernel Uplo.General Op.ConjTrans 2 1 ⟨1, 2⟩ w6A 1 w6B 1 3 w1C 2

/-- Result store of the Lower, NoTrans witness call (n = 1, k = 0,
alpha = 1, beta = 2). -/
def w5W : Nat → Cplx :=
  her2kKernel Uplo.Lower Op.NoTrans 1 0 1 w6A 1 w6B 1 2 w5C 1

/-- Result store of the alpha = 0, beta = 1 witness call. -/
def w2W : Nat → Cplx :=
  her2kKernel Uplo.Upper Op.NoTrans 2 0 0 w6A 2 w6B 2 1 w2C 2

/-- Identity panel transformer used in concrete gelqf instances. -/
def wPanId : Nat → Nat → Nat → Nat := fun _ _ s => s

/-- Concrete panel transformer recording the calls it saw. -/
def wPan : Nat → Nat → Nat → Nat := fun j ib s => s * 100 + 10 * j + ib + 1

/-- Concrete block-apply transformer recording the calls it saw. -/
def wBa : Nat → Nat → Nat → Nat := fun j ib s => s * 100 + 10 * j + ib + 2

/-! Basic lemmas about the scalar type, stores and the loop combinator. -/

@[simp]
theorem Cplx.add_re (x y : Cplx) : (x + y).re = x.re + y.re := rfl

@[simp]
theorem Cplx.add_im (x y : Cplx) : (x + y).im = x.im + y.im := rfl

@[simp]
theorem Cplx.ofInt_re (r : ℤ) : (Cplx.ofInt r).re = r := rfl

@[simp]
theorem Cplx.ofInt_im (r : ℤ) : (Cplx.ofInt r).im = 0 := rfl

@[simp]
theorem Cplx.conj_re (x : Cplx) : (Cplx.conj x).re = x.re := rfl

@[simp]
theorem Cplx.conj_im (x : Cplx) : (Cplx.conj x).im = -x.im := rfl

@[simp]
theorem upd_self (C : Nat → Cplx) (p : Nat) (v : Cplx) : upd C p v p = v := by
  simp [upd]

theorem upd_ne (C : Nat → Cplx) (p : Nat) (v : Cplx) {q : Nat} (h : q ≠ p) :
    upd C p v q = C q := by
  simp [upd, h]

theorem iterUp_ge {σ : Type} (f : Nat → σ → σ) (a b : Nat) (s : σ) (h : b ≤ a) :
    iterUp f a b s = s := by
  unfold iterUp
  rw [Nat.sub_eq_zero_of_le h]
  rfl

theorem iterUp_lt {σ : Type} (f : Nat → σ → σ) (a b : Nat) (s : σ) (h : a < b) :
    iterUp f a b s = iterUp f (a + 1) b (f a s) := by
  unfold iterUp
  have h1 : b - a = (b - (a + 1)) + 1 := by omega
  rw [h1]
  rfl

theorem iterCnt_add {σ : Type} (f : Nat → σ → σ) (c d a : Nat) (s : σ) :
    iterCnt f (c + d) a s = iterCnt f d (a + c) (iterCnt f c a s) := by
  induction c generalizing a s with
  | zero => simp [iterCnt]
  | succ c ih =>
    have h1 : c + 1 + d = (c + d) + 1 := by omega
    rw [h1]
    show iterCnt f (c + d) (a + 1) (f a s) = _
    rw [ih]
    have h2 : a + 1 + c = a + (c + 1) := by omega
    rw [h2]
    rfl

theorem iterUp_split {σ : Type} (f : Nat → σ → σ) (a m b : Nat) (s : σ)
    (h1 : a ≤ m) (h2 : m ≤ b) :
    iterUp f a b s = iterUp f m b (iterUp f a m s) := by
  unfold iterUp
  have h3 : b - a = (m - a) + (b - m) := by omega
  rw [h3, iterCnt_add]
  have h4 : a + (m - a) = m := by omega
  rw [h4]

theorem iterUp_succ_right {σ : Type} (f : Nat → σ → σ) (a b : Nat) (s : σ) (h : a ≤ b) :
    iterUp f a (b + 1) s = f b (iterUp f a b s) := by
  rw [iterUp_split f a b (b + 1) s h (by omega), iterUp_lt f b (b + 1) _ (by omega),
    iterUp_ge f (b + 1) (b + 1) _ (le_refl _)]

theorem iterUp_indAux {σ : Type} (f : Nat → σ → σ) (P : Nat → σ → Prop) :
    ∀ (d a : Nat) (s : σ), P a s →
      (∀ i t, a ≤ i → i < a + d → P i t → P (i + 1) (f i t)) →
      P (a + d) (iterUp f a (a + d) s)
  | 0, a, s, h0, _ => by
    rw [iterUp_ge f a (a + 0) s (by omega)]
    simpa using h0
  | d + 1, a, s, h0, hstep => by
    rw [iterUp_lt f a (a + (d + 1)) s (by omega)]
    have he : a + (d + 1) = (a + 1) + d := by omega
    rw [he]
    exact iterUp_indAux f P d (a + 1) (f a s)
      (hstep a s (le_refl a) (by omega) h0)
      (fun i t h1 h2 hp => hstep i t (by omega) (by omega) hp)

/-- Loop-invariant induction for `iterUp`: an indexed invariant holding
before the loop and preserved by every iteration holds at the end. -/
theorem iterUp_ind {σ : Type} (f : Nat → σ → σ) (P : Nat → σ → Prop) (a b : Nat) (s : σ)
    (hab : a ≤ b) (h0 : P a s)
    (hstep : ∀ i t, a ≤ i → i < b → P i t → P (i + 1) (f i t)) :
    P b (iterUp f a b s) := by
  obtain ⟨d, rfl⟩ : ∃ d, b = a + d := ⟨b - a, by omega⟩
  exact iterUp_indAux f P d a s h0 (fun i t h1 h2 hp => hstep i t h1 h2 hp)

/-- An index-independent property preserved by every iteration is
preserved by the whole loop. -/
theorem iterUp_preserve {σ : Type} (f : Nat → σ → σ) (Q : σ → Prop) (a b : Nat) (s : σ)
    (hstep : ∀ i t, a ≤ i → i < b → Q t → Q (f i t)) (hs : Q s) :
    Q (iterUp f a b s) := by
  rcases le_or_lt a b with h | h
  · exact iterUp_ind f (fun _ t => Q t) a b s h hs (fun i t h1 h2 hq => hstep i t h1 h2 hq)
  · rw [iterUp_ge f a b s (by omega)]
    exact hs

/-- The flat index map is injective on rows below the leading dimension. -/
theorem lin_inj {ld i j i' j' : Nat} (hi : i < ld) (hi' : i' < ld)
    (h : lin ld i j = lin ld i' j') : i = i' ∧ j = j' := by
  unfold lin at h
  have hld : 0 < ld := by omega
  have h1 : (i + j * ld) % ld = i := by
    rw [Nat.add_mul_mod_self_right]
    exact Nat.mod_eq_of_lt hi
  have h2 : (i' + j' * ld) % ld = i' := by
    rw [Nat.add_mul_mod_self_right]
    exact Nat.mod_eq_of_lt hi'
  have hii : i = i' := by rw [← h1, ← h2, h]
  refine ⟨hii, ?_⟩
  subst hii
  have h3 : j * ld = j' * ld := by omega
  exact Nat.eq_of_mul_eq_mul_right hld h3

/-- Distinct (row, column) pairs with in-range rows have distinct flat
positions. -/
theorem lin_ne {ld i j i' j' : Nat} (hi : i < ld) (hi' : i' < ld)
    (h : i ≠ i' ∨ j ≠ j') : lin ld i j ≠ lin ld i' j' := by
  intro he
  rcases lin_inj hi hi' he with ⟨h1, h2⟩
  tauto

@[simp]
theorem Cplx.zero_def : (0 : Cplx) = ⟨0, 0⟩ := rfl

theorem Cplx.conj_eq_zero {x : Cplx} : Cplx.conj x = 0 ↔ x = 0 := by
  cases x
  simp [Cplx.conj, Cplx.mk.injEq]

/-! Frame lemmas: each column body of the main her2k loops writes only
flat positions inside its own column. -/

/-- A loop whose body writes position (i, j) at iteration i leaves every
other flat position untouched. -/
theorem iterUp_upd_frame (ldc j : Nat) (v : Nat → (Nat → Cplx) → Cplx) (a b : Nat)
    (D : Nat → Cplx) {q : Nat} (hq : ∀ i, a ≤ i → i < b → lin ldc i j ≠ q) :
    (iterUp (fun i C => upd C (lin ldc i j) (v i C)) a b D) q = D q := by
  refine iterUp_preserve _ (fun C : Nat → Cplx => C q = D q) a b D ?_ rfl
  intro i t h1 h2 ht
  rw [upd_ne _ _ _ (Ne.symm (hq i h1 h2)), ht]

theorem ntUpperCol_frame (k : Nat) (alpha : Cplx) (A : Nat → Cplx) (lda : Nat)
    (B : Nat → Cplx) (ldb : Nat) (beta : ℤ) (ldc : Nat) (n m : Nat) (D : Nat → Cplx)
    {q : Nat} (hm : m < n) (hq : ∀ i, i < n → lin ldc i m ≠ q) :
    (ntUpperCol k alpha A lda B ldb beta ldc m D) q = D q := by
  unfold ntUpperCol
  have hCa : (iterUp (fun i C => upd C (lin ldc i m) (Cplx.scale beta (C (lin ldc i m)))) 0 m D) q
      = D q :=
    iterUp_upd_frame ldc m _ 0 m D (fun i _ h2 => hq i (by omega))
  refine Eq.trans (iterUp_preserve _ (fun C : Nat → Cplx => C q = D q) 0 k _ ?_ ?_) rfl
  · intro l t h1 h2 ht
    have hCc : (iterUp (fun i C => upd C (lin ldc i m)
        (C (lin ldc i m) + (A (lin lda i l) * (alpha * Cplx.conj (B (lin ldb m l)))
          + B (lin ldb i l) * Cplx.conj (alpha * A (lin lda m l))))) 0 m t) q = t q :=
      iterUp_upd_frame ldc m _ 0 m t (fun i _ h4 => hq i (by omega))
    rw [upd_ne _ _ _ (Ne.symm (hq m hm)), hCc, ht]
  · dsimp only
    rw [upd_ne _ _ _ (Ne.symm (hq m hm)), hCa]

theorem ntLowerCol_frame (n k : Nat) (alpha : Cplx) (A : Nat → Cplx) (lda : Nat)
    (B : Nat → Cplx) (ldb : Nat) (beta : ℤ) (ldc : Nat) (m : Nat) (D : Nat → Cplx)
    {q : Nat} (hm : m < n) (hq : ∀ i, i < n → lin ldc i m ≠ q) :
    (ntLowerCol n k alpha A lda B ldb beta ldc m D) q = D q := by
  unfold ntLowerCol
  have hCb : (iterUp (fun i C => upd C (lin ldc i m) (Cplx.scale beta (C (lin ldc i m))))
      (m + 1) n (upd D (lin ldc m m) (Cplx.ofInt (beta * (D (lin ldc m m)).re)))) q = D q := by
    rw [iterUp_upd_frame ldc m _ (m + 1) n _ (fun i _ h2 => hq i (by omega)),
      upd_ne _ _ _ (Ne.symm (hq m hm))]
  refine Eq.trans (iterUp_preserve _ (fun C : Nat → Cplx => C q = D q) 0 k _ ?_ hCb) rfl
  intro l t h1 h2 ht
  rw [iterUp_upd_frame ldc m _ (m + 1) n _ (fun i _ h4 => hq i (by omega)),
    upd_ne _ _ _ (Ne.symm (hq m hm)), ht]

theorem ctUpperCol_frame (k : Nat) (alpha : Cplx) (A : Nat → Cplx) (lda : Nat)
    (B : Nat → Cplx) (ldb : Nat) (beta : ℤ) (ldc : Nat) (n m : Nat) (D : Nat → Cplx)
    {q : Nat} (hm : m < n) (hq : ∀ i, i < n → lin ldc i m ≠ q) :
    (ctUpperCol k alpha A lda B ldb beta ldc m D) q = D q := by
  unfold ctUpperCol
  exact iterUp_upd_frame ldc m _ 0 (m + 1) D (fun i _ h2 => hq i (by omega))

theorem ctLowerCol_frame (n k : Nat) (alpha : Cplx) (A : Nat → Cplx) (lda : Nat)
    (B : Nat → Cplx) (ldb : Nat) (beta : ℤ) (ldc : Nat) (m : Nat) (D : Nat → Cplx)
    {q : Nat} (hm : m < n) (hq : ∀ i, i < n → lin ldc i m ≠ q) :
    (ctLowerCol n k alpha A lda B ldb beta ldc m D) q = D q := by
  unfold ctLowerCol
  exact iterUp_upd_frame ldc m _ m n D (fun i _ h2 => hq i (by omega))

/-! Diagonal realness: each column body writes an exactly-real value at
its own diagonal position. -/

theorem ntUpperCol_diag_im (k : Nat) (alpha : Cplx) (A : Nat → Cplx) (lda : Nat)
    (B : Nat → Cplx) (ldb : Nat) (beta : ℤ) (ldc : Nat) (m : Nat) (D : Nat → Cplx)
    (hm : m < ldc) :
    ((ntUpperCol k alpha A lda B ldb beta ldc m D) (lin ldc m m)).im = 0 := by
  unfold ntUpperCol
  refine iterUp_preserve _ (fun C : Nat → Cplx => (C (lin ldc m m)).im = 0) 0 k _ ?_ (by simp)
  intro l t h1 h2 ht
  have hCc : (iterUp (fun i C => upd C (lin ldc i m)
      (C (lin ldc i m) + (A (lin lda i l) * (alpha * Cplx.conj (B (lin ldb m l)))
        + B (lin ldb i l) * Cplx.conj (alpha * A (lin lda m l))))) 0 m t)
      (lin ldc m m) = t (lin ldc m m) :=
    iterUp_upd_frame ldc m _ 0 m t
      (fun i _ h4 => lin_ne (by omega) hm (Or.inl (by omega)))
  simp [hCc, ht]

theorem ntLowerCol_diag_im (n k : Nat) (alpha : Cplx) (A : Nat → Cplx) (lda : Nat)
    (B : Nat → Cplx) (ldb : Nat) (beta : ℤ) (ldc : Nat) (m : Nat) (D : Nat → Cplx)
    (hn : n ≤ ldc) (hm : m < n) :
    ((ntLowerCol n k alpha A lda B ldb beta ldc m D) (lin ldc m m)).im = 0 := by
  unfold ntLowerCol
  have hframe : ∀ (t : Nat → Cplx),
      (iterUp (fun i C => upd C (lin ldc i m) (Cplx.scale beta (C (lin ldc i m)))) (m + 1) n t)
        (lin ldc m m) = t (lin ldc m m) := fun t =>
    iterUp_upd_frame ldc m _ (m + 1) n t
      (fun i h1 h2 => lin_ne (by omega) (by omega) (Or.inl (by omega)))
  refine iterUp_preserve _ (fun C : Nat → Cplx => (C (lin ldc m m)).im = 0) 0 k _ ?_ ?_
  · intro l t h1 h2 ht
    have hacc : (iterUp (fun i C => upd C (lin ldc i m)
        (C (lin ldc i m) + (A (lin lda i l) * (alpha * Cplx.conj (B (lin ldb m l)))
          + B (lin ldb i l) * Cplx.conj (alpha * A (lin lda m l))))) (m + 1) n
        (upd t (lin ldc m m) (t (lin ldc m m)
          + Cplx.ofInt (2 * (A (lin lda m l) * (alpha * Cplx.conj (B (lin ldb m l)))).re))))
        (lin ldc m m)
        = (upd t (lin ldc m m) (t (lin ldc m m)
          + Cplx.ofInt (2 * (A (lin lda m l) * (alpha * Cplx.conj (B (lin ldb m l)))).re)))
          (lin ldc m m) :=
      iterUp_upd_frame ldc m _ (m + 1) n _
        (fun i h1 h2 => lin_ne (by omega) (by omega) (Or.inl (by omega)))
    simp [hacc, ht]
  · dsimp only
    rw [hframe]
    simp

theorem ctUpperCol_diag_im (k : Nat) (alpha : Cplx) (A : Nat → Cplx) (lda : Nat)
    (B : Nat → Cplx) (ldb : Nat) (beta : ℤ) (ldc : Nat) (m : Nat) (D : Nat → Cplx) :
    ((ctUpperCol k alpha A lda B ldb beta ldc m D) (lin ldc m m)).im = 0 := by
  unfold ctUpperCol
  rw [iterUp_succ_right _ 0 m _ (Nat.zero_le m)]
  simp

theorem ctLowerCol_diag_im (n k : Nat) (alpha : Cplx) (A : Nat → Cplx) (lda : Nat)
    (B : Nat → Cplx) (ldb : Nat) (beta : ℤ) (ldc : Nat) (m : Nat) (D : Nat → Cplx)
    (hn : n ≤ ldc) (hm : m < n) :
    ((ctLowerCol n k alpha A lda B ldb beta ldc m D) (lin ldc m m)).im = 0 := by
  unfold ctLowerCol
  rw [iterUp_lt _ m n _ hm]
  rw [iterUp_upd_frame ldc m _ (m + 1) n _
    (fun i h1 h2 => lin_ne (by omega) (by omega) (Or.inl (by omega)))]
  simp

/-- Running any column-local body over all columns leaves every diagonal
entry exactly real: the body touches only its own column (hG1) and
realizes its own diagonal entry (hG2). -/
theorem mainLoop_diag_im (G : Nat → (Nat → Cplx) → (Nat → Cplx)) (n ldc : Nat)
    (C : Nat → Cplx) (hn : n ≤ ldc)
    (hG1 : ∀ m D q, m < n → (∀ i, i < n → lin ldc i m ≠ q) → (G m D) q = D q)
    (hG2 : ∀ m D, m < n → ((G m D) (lin ldc m m)).im = 0) :
    ∀ j, j < n → ((iterUp G 0 n C) (lin ldc j j)).im = 0 := by
  refine iterUp_ind G (fun jcur D => ∀ j, j < jcur → (D (lin ldc j j)).im = 0) 0 n C
    (Nat.zero_le n) (by omega) ?_
  intro m t h1 h2 hp j hj
  rcases Nat.lt_or_ge j m with hjm | hjm
  · rw [hG1 m t (lin ldc j j) h2
      (fun i hi => lin_ne (by omega) (by omega) (Or.inr (by omega)))]
    exact hp j hjm
  · have hjm' : j = m := by omega
    subst hjm'
    exact hG2 j t h2

/-- The General mirroring step never writes positions on or above the
diagonal. -/
theorem her2kMirror_frame (n ldc : Nat) (C : Nat → Cplx) {i0 j0 : Nat}
    (hij : i0 ≤ j0) (hj0 : j0 < n) (hn : n ≤ ldc) :
    (her2kMirror n ldc C) (lin ldc i0 j0) = C (lin ldc i0 j0) := by
  unfold her2kMirror
  refine iterUp_preserve _ (fun D : Nat → Cplx => D (lin ldc i0 j0) = C (lin ldc i0 j0))
    0 n C ?_ rfl
  intro j t h1 h2 ht
  dsimp only
  rw [iterUp_upd_frame ldc j _ (j + 1) n t ?_, ht]
  intro i hi1 hi2
  exact lin_ne (by omega) (by omega) (by omega)

/-- After the General mirroring step, every strictly-lower entry is the
conjugate of the pre-mirror strictly-upper entry it mirrors. -/
theorem her2kMirror_lower (n ldc : Nat) (C : Nat → Cplx) {i j : Nat}
    (hji : j < i) (hi : i < n) (hn : n ≤ ldc) :
    (her2kMirror n ldc C) (lin ldc i j) = Cplx.conj (C (lin ldc j i)) := by
  unfold her2kMirror
  have hupper : ∀ (a b : Nat) (t : Nat → Cplx), b ≤ n →
      (iterUp (fun j' C' => iterUp
        (fun i' C'' => upd C'' (lin ldc i' j') (Cplx.conj (C'' (lin ldc j' i')))) (j' + 1) n C')
        a b t) (lin ldc j i) = t (lin ldc j i) := by
    intro a b t hb
    refine iterUp_preserve _ (fun D : Nat → Cplx => D (lin ldc j i) = t (lin ldc j i))
      a b t ?_ rfl
    intro j' u h1 h2 hu
    dsimp only
    rw [iterUp_upd_frame ldc j' _ (j' + 1) n u ?_, hu]
    intro i' hi1 hi2
    exact lin_ne (by omega) (by omega) (by omega)
  rw [iterUp_split _ 0 j n C (Nat.zero_le j) (by omega),
    iterUp_lt _ j n _ (by omega)]
  set C1 := iterUp (fun j' C' => iterUp
    (fun i' C'' => upd C'' (lin ldc i' j') (Cplx.conj (C'' (lin ldc j' i')))) (j' + 1) n C') 0 j C
    with hC1
  have hcol : (iterUp
      (fun i' C'' => upd C'' (lin ldc i' j) (Cplx.conj (C'' (lin ldc j i')))) (j + 1) n C1)
      (lin ldc i j) = Cplx.conj (C (lin ldc j i)) := by
    rw [iterUp_split _ (j + 1) i n C1 (by omega) (by omega),
      iterUp_lt _ i n _ (by omega)]
    rw [iterUp_upd_frame ldc j _ (i + 1) n _ (fun i' h1 h2 => lin_ne (by omega) (by omega)
      (Or.inl (by omega)))]
    rw [upd_self]
    have hmid : (iterUp
        (fun i' C'' => upd C'' (lin ldc i' j) (Cplx.conj (C'' (lin ldc j i')))) (j + 1) i C1)
        (lin ldc j i) = C1 (lin ldc j i) :=
      iterUp_upd_frame ldc j _ (j + 1) i C1 (fun i' h1 h2 => lin_ne (by omega) (by omega)
        (Or.inl (by omega)))
    rw [hmid, hC1, hupper 0 j C (by omega)]
  refine Eq.trans (iterUp_preserve _
    (fun D : Nat → Cplx => D (lin ldc i j) = Cplx.conj (C (lin ldc j i))) (j + 1) n _ ?_ hcol) rfl
  intro j' u h1 h2 hu
  dsimp only
  rw [iterUp_upd_frame ldc j' _ (j' + 1) n u (fun i' hi1 hi2 => lin_ne (by omega) (by omega)
    (Or.inr (by omega))), hu]

/-- After the kernel body with alpha nonzero, every diagonal entry of
the referenced triangle is exactly real, for every selector. -/
theorem her2kKernel_diag_im (uplo : Uplo) (trans : Op) (n k : Nat) (alpha : Cplx)
    (A : Nat → Cplx) (lda : Nat) (B : Nat → Cplx) (ldb : Nat) (beta : ℤ)
    (C : Nat → Cplx) (ldc : Nat) (halpha : alpha ≠ 0) (hn : n ≤ ldc) :
    ∀ j, j < n →
      ((her2kKernel uplo trans n k alpha A lda B ldb beta C ldc) (lin ldc j j)).im = 0 := by
  intro j hj
  unfold her2kKernel
  rw [if_neg (by omega), if_neg halpha]
  have hNTU : ((iterUp (ntUpperCol k alpha A lda B ldb beta ldc) 0 n C) (lin ldc j j)).im = 0 :=
    mainLoop_diag_im _ n ldc C hn
      (fun m D q hm hq => ntUpperCol_frame k alpha A lda B ldb beta ldc n m D hm hq)
      (fun m D hm => ntUpperCol_diag_im k alpha A lda B ldb beta ldc m D (by omega)) j hj
  have hNTL : ((iterUp (ntLowerCol n k alpha A lda B ldb beta ldc) 0 n C) (lin ldc j j)).im = 0 :=
    mainLoop_diag_im _ n ldc C hn
      (fun m D q hm hq => ntLowerCol_frame n k alpha A lda B ldb beta ldc m D hm hq)
      (fun m D hm => ntLowerCol_diag_im n k alpha A lda B ldb beta ldc m D hn hm) j hj
  have hCTU : ((iterUp (ctUpperCol k alpha A lda B ldb beta ldc) 0 n C) (lin ldc j j)).im = 0 :=
    mainLoop_diag_im _ n ldc C hn
      (fun m D q hm hq => ctUpperCol_frame k alpha A lda B ldb beta ldc n m D hm hq)
      (fun m D hm => ctUpperCol_diag_im k alpha A lda B ldb beta ldc m D) j hj
  have hCTL : ((iterUp (ctLowerCol n k alpha A lda B ldb beta ldc) 0 n C) (lin ldc j j)).im = 0 :=
    mainLoop_diag_im _ n ldc C hn
      (fun m D q hm hq => ctLowerCol_frame n k alpha A lda B ldb beta ldc m D hm hq)
      (fun m D hm => ctLowerCol_diag_im n k alpha A lda B ldb beta ldc m D hn hm) j hj
  by_cases hg : uplo = Uplo.General
  · rw [if_pos hg]
    rw [her2kMirror_frame n ldc _ (le_refl j) hj hn]
    subst hg
    by_cases ht : trans = Op.NoTrans
    · rw [if_pos ht, if_pos (by simp)]
      exact hNTU
    · rw [if_neg ht, if_pos (by simp)]
      exact hCTU
  · rw [if_neg hg]
    by_cases ht : trans = Op.NoTrans <;> by_cases hl : uplo = Uplo.Lower
    · rw [if_pos ht, if_neg (by simp [hl])]
      exact hNTL
    · rw [if_pos ht, if_pos (by simp [hl])]
      exact hNTU
    · rw [if_neg ht, if_neg (by simp [hl])]
      exact hCTL
    · rw [if_neg ht, if_pos (by simp [hl])]
      exact hCTU

/-- After the kernel body with the General selector and alpha nonzero,
every strictly-lower entry is the conjugate of its upper mirror. -/
theorem her2kKernel_general_offdiag (trans : Op) (n k : Nat) (alpha : Cplx)
    (A : Nat → Cplx) (lda : Nat) (B : Nat → Cplx) (ldb : Nat) (beta : ℤ)
    (C : Nat → Cplx) (ldc : Nat) (halpha : alpha ≠ 0) (hn : n ≤ ldc) (hn0 : n ≠ 0) :
    ∀ i j, j < i → i < n →
      (her2kKernel Uplo.General trans n k alpha A lda B ldb beta C ldc) (lin ldc i j)
        = Cplx.conj ((her2kKernel Uplo.General trans n k alpha A lda B ldb beta C ldc)
            (lin ldc j i)) := by
  intro i j hji hi
  unfold her2kKernel
  rw [if_neg hn0, if_neg halpha]
  rw [if_pos rfl]
  rw [her2kMirror_lower n ldc _ hji hi hn, her2kMirror_frame n ldc _ (le_of_lt hji) hi hn]

/-- Inversion of the her2k entry point: a successful call implies the
ldc check passed and the result is the kernel applied to the (possibly
row-major-adapted) arguments. -/
theorem her2k_some_elim {layout : Layout} {uplo : Uplo} {trans : Op} {n k : Nat}
    {alpha : Cplx} {A : Nat → Cplx} {lda : Nat} {B : Nat → Cplx} {ldb : Nat}
    {beta : ℤ} {C : Nat → Cplx} {ldc : Nat} {C' : Nat → Cplx}
    (h : her2k layout uplo trans n k alpha A lda B ldb beta C ldc = some C') :
    n ≤ ldc ∧
      C' = her2kKernel (if layout = Layout.RowMajor then swapUplo uplo else uplo)
        (if layout = Layout.RowMajor then flipOp trans else trans) n k
        (if layout = Layout.RowMajor then Cplx.conj alpha else alpha)
        A lda B ldb beta C ldc := by
  unfold her2k at h
  split_ifs at h with h1 h2 h3 h4 h5 h6 h7 h8 h9 h10 h11 h12
  all_goals injection h with hx
  all_goals subst hx
  all_goals refine ⟨by omega, ?_⟩
  all_goals simp [*]

/-- With alpha = 0 the kernel reduces to the alpha-zero branch and never
consults A, B, lda or ldb. -/
theorem her2kKernel_alpha0 (uplo : Uplo) (trans : Op) (n k : Nat)
    (A : Nat → Cplx) (lda : Nat) (B : Nat → Cplx) (ldb : Nat) (beta : ℤ)
    (C : Nat → Cplx) (ldc : Nat) :
    her2kKernel uplo trans n k 0 A lda B ldb beta C ldc
      = if n = 0 then C else her2kAlphaZero uplo n beta C ldc := by
  unfold her2kKernel
  by_cases hn : n = 0 <;> simp [hn]

/-- With beta = 1 the alpha-zero branch is the identity (the source
falls through both `beta == zero` and `beta != one`). -/
theorem her2kAlphaZero_beta_one (uplo : Uplo) (n : Nat) (C : Nat → Cplx) (ldc : Nat) :
    her2kAlphaZero uplo n 1 C ldc = C := by
  unfold her2kAlphaZero
  norm_num

/-! Lemmas about the gelqf panel loop. -/

/-- Once the loop guard fails the loop returns immediately. -/
theorem gelqfLoop_done {S : Type} (pan ba : Nat → Nat → S → S) (k nb fuel j : Nat)
    (s : S) (hj : k ≤ j) : gelqfLoop pan ba k nb fuel j s = some (s, []) := by
  cases fuel <;> simp [gelqfLoop, Nat.not_lt.mpr hj]

/-- With nb = 0 and the guard true, the loop variable never advances and
every fuel is exhausted: the source loop does not terminate. -/
theorem gelqfLoop_nb0 {S : Type} (pan ba : Nat → Nat → S → S) (k j : Nat)
    (hj : j < k) : ∀ (fuel : Nat) (s : S), gelqfLoop pan ba k 0 fuel j s = none := by
  intro fuel
  induction fuel with
  | zero =>
    intro s
    simp [gelqfLoop, hj]
  | succ fuel ih =>
    intro s
    have hib : min 0 (k - j) = 0 := by omega
    simp only [gelqfLoop, if_pos hj, hib, Nat.add_zero, if_pos hj, ih]
    simp

/-- Ceiling-division recurrence used to count loop iterations. -/
theorem ceil_step {t nb : Nat} (hnb : 1 ≤ nb) (ht : 1 ≤ t) :
    (t + nb - 1) / nb = (t - nb + nb - 1) / nb + 1 := by
  have h1 : t + nb - 1 = (t - 1) + nb := by omega
  rw [h1, Nat.add_div_right _ (by omega)]
  have h2 : (t - 1) / nb = (t - nb + nb - 1) / nb := by
    rcases le_or_lt t nb with h | h
    · have h3 : t - nb = 0 := by omega
      rw [h3, Nat.div_eq_of_lt (by omega), Nat.div_eq_of_lt (by omega)]
    · have h3 : t - nb + nb - 1 = t - 1 := by omega
      rw [h3]
  omega

/-- With nb ≥ 1 and enough fuel, the loop terminates and performs
exactly ceil((k - j)/nb) iterations, the i-th starting at j + i*nb. -/
theorem gelqfLoop_complete {S : Type} (pan ba : Nat → Nat → S → S) (k nb : Nat)
    (hnb : 1 ≤ nb) :
    ∀ (fuel j : Nat) (s : S), k ≤ j + fuel * nb →
      ∃ s' calls, gelqfLoop pan ba k nb fuel j s = some (s', calls)
        ∧ calls.length = (k - j + nb - 1) / nb
        ∧ ∀ i (hi : i < calls.length), (calls.get ⟨i, hi⟩).j = j + i * nb := by
  intro fuel
  induction fuel with
  | zero =>
    intro j s hf
    have hjk : k ≤ j := by omega
    refine ⟨s, [], gelqfLoop_done pan ba k nb 0 j s hjk, ?_, ?_⟩
    · have h1 : k - j = 0 := by omega
      rw [h1]
      simp [Nat.div_eq_of_lt (show nb - 1 < nb by omega)]
    · intro i hi
      simp at hi
  | succ fuel ih =>
    intro j s hf
    by_cases hjk : j < k
    · have hfuel : k ≤ (j + nb) + fuel * nb := by
        have hm : (fuel + 1) * nb = fuel * nb + nb := by ring
        omega
      have hlen : ∀ (calls : List PanelCall),
          calls.length = (k - (j + nb) + nb - 1) / nb →
          calls.length + 1 = (k - j + nb - 1) / nb := by
        intro calls hc
        have h1 : k - (j + nb) = (k - j) - nb := by omega
        rw [ceil_step hnb (show 1 ≤ k - j by omega), ← h1, ← hc]
      by_cases hblk : j + min nb (k - j) < k
      · obtain ⟨s', calls, heq, hclen, hjs⟩ :=
          ih (j + nb) (ba j (min nb (k - j)) (pan j (min nb (k - j)) s)) hfuel
        refine ⟨s', ⟨j, min nb (k - j), true⟩ :: calls, ?_, ?_, ?_⟩
        · simp [gelqfLoop, if_pos hjk, if_pos hblk, heq]
        · simpa using hlen calls hclen
        · intro i hi
          match i with
          | 0 => simp
          | i + 1 =>
            have hi' : i < calls.length := by simpa using hi
            have := hjs i hi'
            simp only [List.get_cons_succ]
            rw [this]
            have hm : (i + 1) * nb = i * nb + nb := by ring
            omega
      · obtain ⟨s', calls, heq, hclen, hjs⟩ :=
          ih (j + nb) (pan j (min nb (k - j)) s) hfuel
        refine ⟨s', ⟨j, min nb (k - j), false⟩ :: calls, ?_, ?_, ?_⟩
        · simp [gelqfLoop, if_pos hjk, if_neg hblk, heq]
        · simpa using hlen calls hclen
        · intro i hi
          match i with
          | 0 => simp
          | i + 1 =>
            have hi' : i < calls.length := by simpa using hi
            have := hjs i hi'
            simp only [List.get_cons_succ]
            rw [this]
            have hm : (i + 1) * nb = i * nb + nb := by ring
            omega
    · refine ⟨s, [], gelqfLoop_done pan ba k nb (fuel + 1) j s (by omega), ?_, ?_⟩
      · have h1 : k - j = 0 := by omega
        rw [h1]
        simp [Nat.div_eq_of_lt (show nb - 1 < nb by omega)]
      · intro i hi
        simp at hi

/-- With nb ≥ k > 0 the loop performs a single unblocked iteration with
ib = k and never invokes the block-apply step. -/
theorem gelqfLoop_single {S : Type} (pan ba : Nat → Nat → S → S) (k nb : Nat) (s : S)
    (hk : 0 < k) (hnb : k ≤ nb) :
    ∀ fuel, 0 < fuel →
      gelqfLoop pan ba k nb fuel 0 s = some (pan 0 k s, [⟨0, k, false⟩]) := by
  intro fuel hfuel
  match fuel, hfuel with
  | f + 1, _ =>
    have hib : min nb (k - 0) = k := by omega
    simp only [gelqfLoop, if_pos hk, hib]
    rw [if_neg (show ¬ 0 + k < k by omega),
      gelqfLoop_done pan ba k nb f (0 + nb) _ (by omega)]
    simp

@[simp]
theorem Cplx.mul_re (x y : Cplx) : (x * y).re = x.re * y.re - x.im * y.im := rfl

@[simp]
theorem Cplx.mul_im (x y : Cplx) : (x * y).im = x.re * y.im + x.im * y.re := rfl

@[simp]
theorem Cplx.scale_re (r : ℤ) (x : Cplx) : (Cplx.scale r x).re = r * x.re := rfl

@[simp]
theorem Cplx.scale_im (r : ℤ) (x : Cplx) : (Cplx.scale r x).im = r * x.im := rfl

@[simp]
theorem Cplx.one_def : (1 : Cplx) = ⟨1, 0⟩ := rfl

@[simp]
theorem Cplx.add_mk (a b c d : ℤ) :
    (⟨a, b⟩ : Cplx) + ⟨c, d⟩ = ⟨a + c, b + d⟩ := rfl

@[simp]
theorem Cplx.mul_mk (a b c d : ℤ) :
    (⟨a, b⟩ : Cplx) * ⟨c, d⟩ = ⟨a * c - b * d, a * d + b * c⟩ := rfl

@[simp]
theorem Cplx.scale_mk (r a b : ℤ) : Cplx.scale r ⟨a, b⟩ = ⟨r * a, r * b⟩ := rfl

@[simp]
theorem Cplx.scale_zero (x : Cplx) : Cplx.scale 0 x = 0 := by
  simp [Cplx.scale]

/-! The claim theorems. -/

/-- Claim C1, code-bug evaluation: with alpha = 0, beta = 0, uplo = Lower on a
2-by-2 C, her2k zero-fills the UPPER triangle — C(0,0), C(0,1), C(1,1) become
zero while the lower entry C(1,0) keeps its value ⟨2,1⟩ — contradicting the
claim (and the routine's own Uplo documentation) that exactly the referenced
lower triangle is zero-filled: the alpha = 0 branch's uplo conditions are
swapped and its General full-fill arm is unreachable. -/
theorem her2k_alpha0_beta0_lower_fills_upper :
    (her2k Layout.ColMajor Uplo.Lower Op.NoTrans 2 0 0 w6A 2 w6B 2 0 w1C 2).map
      (fun f => (f (lin 2 0 0), f (lin 2 1 0), f (lin 2 0 1), f (lin 2 1 1)))
      = some (0, ⟨2, 1⟩, 0, 0) := by
  decide

/-- Claim C2, counterexample: with alpha = 0 and beta = 1 her2k leaves C
completely untouched, so a diagonal entry entering with imaginary part 5 keeps
it — the claim's "diagonal set to the real part of its input" is false. -/
theorem her2k_alpha0_beta1_diag_unreal :
    (((her2k Layout.ColMajor Uplo.Upper Op.NoTrans 1 0 0 w6A 1 w6B 1 1 w2C 1).getD w6A)
      (lin 1 0 0)).im ≠ 0 := by
  decide

/-- Claim C2, amended: for every valid her2k call with alpha = 0 and beta = 1,
the entire store C is left unchanged — off-diagonal entries of the referenced
triangle are untouched as claimed, but the diagonal is also untouched (not
realized): the beta = 1 case skips both alpha = 0 sub-branches. -/
theorem her2k_alpha0_beta1_id (layout : Layout) (uplo : Uplo) (trans : Op)
    (n k : Nat) (A : Nat → Cplx) (lda : Nat) (B : Nat → Cplx) (ldb : Nat)
    (C : Nat → Cplx) (ldc : Nat) (C' : Nat → Cplx)
    (h : her2k layout uplo trans n k 0 A lda B ldb 1 C ldc = some C') :
    C' = C := by
  obtain ⟨hldc, hC⟩ := her2k_some_elim h
  have hz : (if layout = Layout.RowMajor then Cplx.conj 0 else 0) = (0 : Cplx) := by
    cases layout <;> simp [Cplx.conj]
  rw [hC, hz, her2kKernel_alpha0, her2kAlphaZero_beta_one]
  simp

/-- Witness for the amended Claim C2 at a concrete input. -/
theorem her2k_alpha0_beta1_id_witness : w2W = w2C :=
  her2k_alpha0_beta1_id Layout.ColMajor Uplo.Upper Op.NoTrans 2 0 w6A 2 w6B 2 w2C 2 w2W rfl

/-- Claim C3, counterexample: a valid call with uplo = General, alpha = 0,
beta = 1 and n = 2 returns a matrix with C(1,0) = i but C(0,1) = 0, which is
not Hermitian — the alpha = 0 path returns before the mirroring step. -/
theorem her2k_general_not_hermitian_alpha0 :
    ((her2k Layout.ColMajor Uplo.General Op.NoTrans 2 0 0 w6A 2 w6B 2 1 w3C 2).getD w6A)
        (lin 2 1 0)
      ≠ Cplx.conj (((her2k Layout.ColMajor Uplo.General Op.NoTrans 2 0 0 w6A 2 w6B 2 1 w3C 2).getD
          w6A) (lin 2 0 1)) := by
  decide

/-- Claim C3, amended: for every valid her2k call with uplo = General and
alpha ≠ 0, the output matrix is Hermitian — C(i,j) = conj(C(j,i)) for all
referenced pairs i ≠ j and every diagonal entry is exactly real.  (With
alpha = 0 the routine returns before the mirroring step, so the unrestricted
claim fails; see the counterexample.) -/
theorem her2k_general_hermitian (layout : Layout) (trans : Op) (n k : Nat)
    (alpha : Cplx) (A : Nat → Cplx) (lda : Nat) (B : Nat → Cplx) (ldb : Nat)
    (beta : ℤ) (C : Nat → Cplx) (ldc : Nat) (C' : Nat → Cplx)
    (halpha : alpha ≠ 0)
    (h : her2k layout Uplo.General trans n k alpha A lda B ldb beta C ldc = some C') :
    (∀ i j, j < i → i < n → C' (lin ldc i j) = Cplx.conj (C' (lin ldc j i)))
      ∧ (∀ j, j < n → (C' (lin ldc j j)).im = 0) := by
  obtain ⟨hldc, hC⟩ := her2k_some_elim h
  have hu : (if layout = Layout.RowMajor then swapUplo Uplo.General else Uplo.General)
      = Uplo.General := by cases layout <;> rfl
  rw [hu] at hC
  have halpha' : (if layout = Layout.RowMajor then Cplx.conj alpha else alpha) ≠ 0 := by
    cases layout
    · exact halpha
    · exact fun he => halpha (Cplx.conj_eq_zero.mp he)
  constructor
  · intro i j hji hi
    rw [hC]
    exact her2kKernel_general_offdiag _ n k _ A lda B ldb beta C ldc halpha' hldc
      (by omega) i j hji hi
  · intro j hj
    rw [hC]
    exact her2kKernel_diag_im Uplo.General _ n k _ A lda B ldb beta C ldc halpha' hldc j hj

/-- Witness for the amended Claim C3 at a concrete input (n = 2, k = 1,
ConjTrans, alpha = 1 + 2i, beta = 3). -/
theorem her2k_general_hermitian_witness :
    w3W (lin 2 1 0) = Cplx.conj (w3W (lin 2 0 1)) ∧ (w3W (lin 2 0 0)).im = 0 :=
  ⟨(her2k_general_hermitian Layout.ColMajor Op.ConjTrans 2 1 ⟨1, 2⟩ w6A 1 w6B 1 3 w1C 2 w3W
      (by decide) rfl).1 1 0 (by omega) (by omega),
    (her2k_general_hermitian Layout.ColMajor Op.ConjTrans 2 1 ⟨1, 2⟩ w6A 1 w6B 1 3 w1C 2 w3W
      (by decide) rfl).2 0 (by omega)⟩

/-- Claim C4: a row-major her2k call produces exactly the result of the
column-major call on the same flat storage with the triangle selector swapped
(Lower and Upper exchanged), the operation selector flipped (NoTrans and
ConjTrans exchanged) and alpha conjugated: one column-major kernel serves both
layouts, and even the leading-dimension checks coincide. -/
theorem her2k_rowmajor_colmajor_equiv (uplo : Uplo) (trans : Op) (n k : Nat)
    (alpha : Cplx) (A : Nat → Cplx) (lda : Nat) (B : Nat → Cplx) (ldb : Nat)
    (beta : ℤ) (C : Nat → Cplx) (ldc : Nat)
    (h : trans = Op.NoTrans ∨ trans = Op.ConjTrans) :
    her2k Layout.RowMajor uplo trans n k alpha A lda B ldb beta C ldc
      = her2k Layout.ColMajor (swapUplo uplo) (flipOp trans) n k (Cplx.conj alpha)
          A lda B ldb beta C ldc := by
  rcases h with h | h <;> subst h <;> simp [her2k, flipOp]

/-- Witness for Claim C4 at a concrete input. -/
theorem her2k_rowmajor_colmajor_equiv_witness :
    her2k Layout.RowMajor Uplo.Lower Op.NoTrans 2 1 ⟨1, 2⟩ w6A 1 w6B 1 3 w1C 2
      = her2k Layout.ColMajor (swapUplo Uplo.Lower) (flipOp Op.NoTrans) 2 1
          (Cplx.conj ⟨1, 2⟩) w6A 1 w6B 1 3 w1C 2 :=
  her2k_rowmajor_colmajor_equiv Uplo.Lower Op.NoTrans 2 1 ⟨1, 2⟩ w6A 1 w6B 1 3 w1C 2
    (Or.inl rfl)

/-- Claim C5: after every valid her2k call with alpha ≠ 0, every diagonal
entry of C has exactly zero imaginary part — the NoTrans branches accumulate
the diagonal as beta*real(C(j,j)) plus 2*real(A(j,l)*alpha*conj(B(j,l))) terms
and the ConjTrans branches assign real(alpha*sum1 + conj(alpha)*sum2)
+ beta*real(C(j,j)), all exactly real by construction. -/
theorem her2k_diag_real (layout : Layout) (uplo : Uplo) (trans : Op) (n k : Nat)
    (alpha : Cplx) (A : Nat → Cplx) (lda : Nat) (B : Nat → Cplx) (ldb : Nat)
    (beta : ℤ) (C : Nat → Cplx) (ldc : Nat) (C' : Nat → Cplx)
    (halpha : alpha ≠ 0)
    (h : her2k layout uplo trans n k alpha A lda B ldb beta C ldc = some C') :
    ∀ j, j < n → (C' (lin ldc j j)).im = 0 := by
  obtain ⟨hldc, hC⟩ := her2k_some_elim h
  have halpha' : (if layout = Layout.RowMajor then Cplx.conj alpha else alpha) ≠ 0 := by
    cases layout
    · exact halpha
    · exact fun he => halpha (Cplx.conj_eq_zero.mp he)
  intro j hj
  rw [hC]
  exact her2kKernel_diag_im _ _ n k _ A lda B ldb beta C ldc halpha' hldc j hj

/-- Witness for Claim C5 at a concrete input (n = 1, k = 0, alpha = 1,
beta = 2, initial diagonal 3 + 4i). -/
theorem her2k_diag_real_witness : (w5W (lin 1 0 0)).im = 0 :=
  her2k_diag_real Layout.ColMajor Uplo.Lower Op.NoTrans 1 0 1 w6A 1 w6B 1 2 w5C 1 w5W
    (by decide) rfl 0 (by decide)

/-- Claim C10: two valid her2k calls with alpha = 0 agreeing on layout, uplo,
trans, n, k, beta, ldc and the initial C, but with arbitrary different A, B,
lda, ldb, produce identical results: the alpha = 0 path never reads A or B. -/
theorem her2k_alpha0_ignores_AB (layout : Layout) (uplo : Uplo) (trans : Op)
    (n k : Nat) (A : Nat → Cplx) (lda : Nat) (B : Nat → Cplx) (ldb : Nat)
    (A2 : Nat → Cplx) (lda2 : Nat) (B2 : Nat → Cplx) (ldb2 : Nat)
    (beta : ℤ) (C : Nat → Cplx) (ldc : Nat) (C1 C2 : Nat → Cplx)
    (h1 : her2k layout uplo trans n k 0 A lda B ldb beta C ldc = some C1)
    (h2 : her2k layout uplo trans n k 0 A2 lda2 B2 ldb2 beta C ldc = some C2) :
    C1 = C2 := by
  obtain ⟨_, hC1⟩ := her2k_some_elim h1
  obtain ⟨_, hC2⟩ := her2k_some_elim h2
  have hz : (if layout = Layout.RowMajor then Cplx.conj 0 else 0) = (0 : Cplx) := by
    cases layout <;> simp [Cplx.conj]
  rw [hC1, hC2, hz, her2kKernel_alpha0, her2kKernel_alpha0]

/-- Witness for Claim C10 at a concrete input: same call with A and B swapped
and different leading dimensions. -/
theorem her2k_alpha0_ignores_AB_witness :
    her2kKernel Uplo.Upper Op.NoTrans 2 0 0 w6A 2 w6B 2 1 w2C 2
      = her2kKernel Uplo.Upper Op.NoTrans 2 0 0 w6B 3 w6A 3 1 w2C 2 :=
  her2k_alpha0_ignores_AB Layout.ColMajor Uplo.Upper Op.NoTrans 2 0 w6A 2 w6B 2 w6B 3 w6A 3
    1 w2C 2 _ _ rfl rfl

/-- Claim C7: when the argument checks pass and nb ≥ k = min(m,n) > 0, the
panel loop of gelqf executes exactly one iteration, with ib = k, factoring the
whole active region by a single unblocked panel step (the call record is
⟨j = 0, ib = k, blocked = false⟩) and never invoking larft/larfb. -/
theorem gelqf_single_panel {S : Type} (pan ba : Nat → Nat → S → S)
    (m n nb ttRows ttCols workSize : Nat) (s : S)
    (h2 : ¬ (ttRows < m ∨ ttCols < nb)) (h3 : ¬ workSize < m)
    (hk : 0 < min m n) (hnb : min m n ≤ nb) :
    gelqf pan ba m n nb ttRows ttCols workSize true s
      = some (0, pan 0 (min m n) s, [⟨0, min m n, false⟩]) := by
  unfold gelqf
  rw [if_neg (by simp), if_neg h2, if_neg h3,
    gelqfLoop_single pan ba (min m n) nb s hk hnb (min m n) hk]
  simp

/-- Witness for Claim C7 at a concrete input (m = 2, n = 3, nb = 2). -/
theorem gelqf_single_panel_witness :
    gelqf wPan wBa 2 3 2 2 2 2 true 0 = some (0, wPan 0 2 0, [⟨0, 2, false⟩]) :=
  gelqf_single_panel wPan wBa 2 3 2 2 2 2 0 (by decide) (by decide) (by decide) (by decide)

/-- Claim C8, counterexample: with m = n = 1, nb = 0 and all three argument
checks passing, gelqf does not return 0 — the panel loop never terminates
(every fuel is exhausted from offset 0), and the fuel-bounded run yields no
result at all, refuting the claim's unconditional "returns 0 otherwise". -/
theorem gelqf_nb_zero_diverges :
    gelqfLoopDiverges wPanId wPanId 1 0 0
      ∧ gelqf wPanId wPanId 1 1 0 1 0 1 true 0 = none :=
  ⟨fun fuel => gelqfLoop_nb0 wPanId wPanId 1 0 (by decide) fuel 0, by decide⟩

/-- Claim C8, amended: gelqf fails with the position-indexed code -1 exactly
when write access to A is denied, with -2 exactly when access is granted but
nrows(TT) < m or ncols(TT) < nb, and with -3 exactly when those checks pass
but the work vector is shorter than m; every failing call leaves the state
untouched with no panel operation performed; and when all checks pass it
returns 0 — provided nb ≥ 1 or k = min(m,n) = 0, since with nb = 0 and k > 0
the loop never terminates. -/
theorem gelqf_error_codes {S : Type} (pan ba : Nat → Nat → S → S)
    (m n nb ttRows ttCols workSize : Nat) (writeAccess : Bool) (s : S) :
    (gelqf pan ba m n nb ttRows ttCols workSize writeAccess s = some (-1, s, [])
        ↔ writeAccess = false)
      ∧ (gelqf pan ba m n nb ttRows ttCols workSize writeAccess s = some (-2, s, [])
        ↔ writeAccess = true ∧ (ttRows < m ∨ ttCols < nb))
      ∧ (gelqf pan ba m n nb ttRows ttCols workSize writeAccess s = some (-3, s, [])
        ↔ writeAccess = true ∧ ¬ (ttRows < m ∨ ttCols < nb) ∧ workSize < m)
      ∧ (writeAccess = true → ¬ (ttRows < m ∨ ttCols < nb) → ¬ workSize < m →
          (1 ≤ nb ∨ min m n = 0) →
          ∃ s' calls, gelqf pan ba m n nb ttRows ttCols workSize writeAccess s
            = some (0, s', calls)) := by
  cases writeAccess with
  | false =>
    refine ⟨?_, ?_, ?_, ?_⟩
    · simp [gelqf]
    · simp [gelqf]
    · simp [gelqf]
    · intro h
      exact absurd h (by simp)
  | true =>
    by_cases htt : ttRows < m ∨ ttCols < nb
    · refine ⟨?_, ?_, ?_, ?_⟩
      · simp [gelqf, htt]
      · simp [gelqf, htt]
      · simp [gelqf, htt]
      · intro _ htt2 _ _
        exact absurd htt htt2
    · by_cases hws : workSize < m
      · refine ⟨?_, ?_, ?_, ?_⟩
        · simp [gelqf, htt, hws]
        · simp [gelqf, htt, hws]
        · simp [gelqf, htt, hws]
        · intro _ _ hws2 _
          exact absurd hws hws2
      · have hg : gelqf pan ba m n nb ttRows ttCols workSize true s
            = (gelqfLoop pan ba (min m n) nb (min m n) 0 s).map (fun r => (0, r.1, r.2)) := by
          simp [gelqf, htt, hws]
        refine ⟨?_, ?_, ?_, ?_⟩
        · rw [hg]
          cases hloop : gelqfLoop pan ba (min m n) nb (min m n) 0 s with
          | none => simp
          | some r => simp
        · rw [hg]
          cases hloop : gelqfLoop pan ba (min m n) nb (min m n) 0 s with
          | none => simp [htt]
          | some r => simp [htt]
        · rw [hg]
          cases hloop : gelqfLoop pan ba (min m n) nb (min m n) 0 s with
          | none => simp [hws]
          | some r => simp [hws]
        · intro _ _ _ hnb0
          rcases hnb0 with hnb1 | hk0
          · obtain ⟨s', calls, heq, _, _⟩ := gelqfLoop_complete pan ba (min m n) nb hnb1
              (min m n) 0 s (by
                have h1 : min m n * 1 ≤ min m n * nb := Nat.mul_le_mul_left _ hnb1
                have h2 : min m n * 1 = min m n := by ring
                omega)
            refine ⟨s', calls, ?_⟩
            rw [hg, heq]
            rfl
          · refine ⟨s, [], ?_⟩
            rw [hg, gelqfLoop_done pan ba (min m n) nb (min m n) 0 s (by omega)]
            rfl

/-- Witness for the amended Claim C8 at a concrete input (write access
denied). -/
theorem gelqf_error_codes_witness :
    gelqf wPan wBa 1 1 1 1 1 1 false 0 = some (-1, 0, []) :=
  (gelqf_error_codes wPan wBa 1 1 1 1 1 1 false 0).1.mpr rfl

/-- Claim C9: for every input passing the argument checks with nb ≥ 1, the
panel loop terminates after exactly ceil(k/nb) iterations, the i-th starting
at offset j = i*nb; with nb = 0 and k > 0 the loop variable never advances, so
no fuel bound completes the loop — termination rests on the unchecked
precondition nb ≥ 1. -/
theorem gelqf_loop_iteration_count {S : Type} (pan ba : Nat → Nat → S → S)
    (m n nb ttRows ttCols workSize : Nat) (s : S) :
    (1 ≤ nb → ¬ (ttRows < m ∨ ttCols < nb) → ¬ workSize < m →
      ∃ s' calls, gelqf pan ba m n nb ttRows ttCols workSize true s = some (0, s', calls)
        ∧ calls.length = (min m n + nb - 1) / nb
        ∧ ∀ i (hi : i < calls.length), (calls.get ⟨i, hi⟩).j = i * nb)
      ∧ (nb = 0 → 0 < min m n →
        ∀ fuel, gelqfLoop pan ba (min m n) nb fuel 0 s = none) := by
  constructor
  · intro hnb htt hws
    obtain ⟨s', calls, heq, hlen, hjs⟩ := gelqfLoop_complete pan ba (min m n) nb hnb
      (min m n) 0 s (by
        have h1 : min m n * 1 ≤ min m n * nb := Nat.mul_le_mul_left _ hnb
        have h2 : min m n * 1 = min m n := by ring
        omega)
    refine ⟨s', calls, ?_, by simpa using hlen, fun i hi => by simpa using hjs i hi⟩
    simp [gelqf, htt, hws, heq]
  · intro hnb hk fuel
    subst hnb
    exact gelqfLoop_nb0 pan ba (min m n) 0 hk fuel s

/-- Witness for Claim C9 at a concrete input (m = 5, n = 7, nb = 2: exactly
ceil(5/2) = 3 panel iterations). -/
theorem gelqf_loop_iteration_count_witness :
    (gelqf wPan wBa 5 7 2 5 2 5 true 0).map (fun r => r.2.2.length) = some 3 := by
  obtain ⟨s', calls, heq, hlen, _⟩ :=
    (gelqf_loop_iteration_count wPan wBa 5 7 2 5 2 5 0).1 (by decide) (by decide) (by decide)
  rw [heq]
  simp [hlen]

/-- Claim C6: the concrete scenario n = 2, k = 1, column-major, uplo = Upper,
trans = NoTrans, alpha = 1, beta = 0, A = column (1, 0), B = column (0, 1):
the call succeeds with C(0,0) = 0, C(0,1) = 1, C(1,1) = 0, and the
unreferenced entry C(1,0) is not written, for every initial C. -/
theorem her2k_concrete_n2k1 (C0 : Nat → Cplx) :
    (her2k Layout.ColMajor Uplo.Upper Op.NoTrans 2 1 1 w6A 2 w6B 2 0 C0 2).map
      (fun f => (f (lin 2 0 0), f (lin 2 1 0), f (lin 2 0 1), f (lin 2 1 1)))
      = some (0, C0 (lin 2 1 0), 1, 0) := by
  simp [her2k, her2kKernel, ntUpperCol, iterUp, iterCnt, upd, lin, w6A, w6B,
    Cplx.conj, Cplx.ofInt, Cplx.mk.injEq]

end Tlapack
